import Mathlib

/-!
Shallow embedding of the `report-news` pipeline
(`src/models/news_item.py`, `src/collector/gemini_search.py`,
`src/summarizer/claude_summarizer.py`, `src/publisher/html_generator.py`).

External network calls (the Gemini search request and the Claude
summarization request) are modelled by passing their outcome in as data:
a collector is a function of the per-query parsed item lists, a
summarizer batch is a function of the decoded JSON of the model response.
Python `datetime` values are modelled by their ISO-format strings
(`isoformat` / `fromisoformat` become the identity on that
representation), and the opaque `raw_data` dict by an association list.
-/

namespace ReportNews

/-- `Importance` enum from `src/models/news_item.py`. -/
inductive Importance where
  | critical
  | high
  | medium
  | low
deriving DecidableEq, Repr

/-- `Category` enum from `src/models/news_item.py`. -/
inductive Category where
  | release
  | feature
  | update
  | bugfix
  | security
  | documentation
  | announcement
  | other
deriving DecidableEq, Repr

/-- `.value` of an `Importance` member. -/
def Importance.value : Importance → String
  | .critical => "critical"
  | .high => "high"
  | .medium => "medium"
  | .low => "low"

/-- `.value` of a `Category` member. -/
def Category.value : Category → String
  | .release => "release"
  | .feature => "feature"
  | .update => "update"
  | .bugfix => "bugfix"
  | .security => "security"
  | .documentation => "documentation"
  | .announcement => "announcement"
  | .other => "other"

/-- Python `Importance(s)`: lookup by value; `none` models the `ValueError`
raised on an unrecognized string. -/
def Importance.ofValue : String → Option Importance
  | "critical" => some .critical
  | "high" => some .high
  | "medium" => some .medium
  | "low" => some .low
  | _ => none

/-- Python `Category(s)`: lookup by value; `none` models the `ValueError`
raised on an unrecognized string. -/
def Category.ofValue : String → Option Category
  | "release" => some .release
  | "feature" => some .feature
  | "update" => some .update
  | "bugfix" => some .bugfix
  | "security" => some .security
  | "documentation" => some .documentation
  | "announcement" => some .announcement
  | "other" => some .other
  | _ => none

/-- The `NewsItem` dataclass from `src/models/news_item.py`.
`published_at` is the optional datetime in ISO-string representation. -/
structure NewsItem where
  title : String
  url : String
  tool_name : String
  source : String
  published_at : Option String := none
  content : String := ""
  summary_ja : String := ""
  summary_en : String := ""
  importance : Importance := .medium
  category : Category := .other
  tags : List String := []
  raw_data : List (String × String) := []
deriving DecidableEq, Repr

/-- `ToolConfig` dataclass (only the fields the collector reads). -/
structure ToolConfig where
  name : String
  vendor : String := ""
  keywords : List String := []
  search_queries : List String := []
  official_links : List String := []
deriving DecidableEq, Repr

/-! ### Collector (`src/collector/gemini_search.py`)

`GeminiSearchCollector.search_tool_news` loops over
`tool_config.search_queries`, extending `news_items` with the parsed
items of each query (`_search_and_parse`; a query whose request or parse
fails contributes `[]`), then removes URL duplicates with a `seen_urls`
set (first occurrence kept) and returns `unique_items[:max_results]`.
The network/parse stage is abstracted: `queryResults` is the list of
per-query parsed item lists, in query order. -/

/-- The `seen_urls` deduplication loop of `search_tool_news`. -/
def dedupByUrl : List NewsItem → List String → List NewsItem
  | [], _ => []
  | item :: rest, seen =>
    if item.url ∈ seen then dedupByUrl rest seen
    else item :: dedupByUrl rest (item.url :: seen)

/-- `GeminiSearchCollector.search_tool_news`: aggregate the per-query
parsed items in query order, deduplicate by URL, truncate. -/
def search_tool_news (queryResults : List (List NewsItem)) (max_results : Nat) :
    List NewsItem :=
  (dedupByUrl queryResults.flatten []).take max_results

/-- `collect_all_news`: per tool, the collector result is extended onto
`all_news`; no cross-tool processing.  `toolQueryResults` holds, per
tool, the per-query parsed item lists. -/
def collect_all_news (toolQueryResults : List (List (List NewsItem)))
    (max_results_per_tool : Nat) : List NewsItem :=
  (toolQueryResults.map (fun qrs => search_tool_news qrs max_results_per_tool)).flatten

/-! ### Summarizer (`src/summarizer/claude_summarizer.py`)

`ClaudeSummarizer.summarize_and_categorize` walks the input in slices of
`batch_size = 10` and extends the output with `_process_batch` of each
slice.  `_process_batch` sends the batch to the Claude API; on any
exception it returns `news_items` (the very same, possibly already
mutated, list).  `_parse_response` extracts/decodes the JSON of the
response text (abstracted here to its outcome `decoded`), builds
`result_map = {r["id"]: r for r in results}` and then, for each original
item at batch index `idx` with a matching id, assigns `summary_ja`,
`summary_en`, `importance` (`Importance(...)`), `category`
(`Category(...)`) and `tags` in that order, mutating the item in place.
An unrecognized enum string raises `ValueError` mid-loop; only
`json.JSONDecodeError` is caught inside `_parse_response`, so the
`ValueError` propagates to `_process_batch`'s handler with the earlier
items of the batch already mutated. -/

/-- One element of the decoded JSON array of a summarization response. -/
structure SummaryResult where
  id : Int
  summary_ja : Option String := none
  summary_en : Option String := none
  importance : Option String := none
  category : Option String := none
  tags : Option (List String) := none
deriving DecidableEq, Repr

/-- `result_map = {r["id"]: r for r in results}`: a later result with the
same id overwrites an earlier one, as in a Python dict comprehension. -/
def resultMap (results : List SummaryResult) (i : Int) : Option SummaryResult :=
  results.foldl (fun acc r => if r.id = i then some r else acc) none

/-- Outcome of the merge loop of `_parse_response`: either it completes,
or an enum `ValueError` is raised with the item list in its current
(partially mutated) state. -/
inductive MergeOut where
  | ok : List NewsItem → MergeOut
  | enumError : String → List NewsItem → MergeOut
deriving DecidableEq, Repr

/-- The list carried by a `MergeOut` (the state of `original_items`). -/
def MergeOut.items : MergeOut → List NewsItem
  | .ok l => l
  | .enumError _ l => l

/-- Prepend an already-processed item to a merge outcome. -/
def MergeOut.consItem (x : NewsItem) : MergeOut → MergeOut
  | .ok l => .ok (x :: l)
  | .enumError m l => .enumError m (x :: l)

/-- The `for idx, item in enumerate(original_items)` merge loop of
`_parse_response`.  Field assignments happen in source order
(`summary_ja`, `summary_en`, `importance`, `category`, `tags`), so an
invalid importance string leaves the summaries already written, and an
invalid category string additionally leaves the importance written. -/
def mergeLoop (rm : Int → Option SummaryResult) : Nat → List NewsItem → MergeOut
  | _, [] => .ok []
  | idx, item :: rest =>
    match rm idx with
    | none => (mergeLoop rm (idx + 1) rest).consItem item
    | some r =>
      let item1 := { item with
        summary_ja := r.summary_ja.getD ""
        summary_en := r.summary_en.getD "" }
      match Importance.ofValue (r.importance.getD "medium") with
      | none => .enumError "importance" (item1 :: rest)
      | some imp =>
        let item2 := { item1 with importance := imp }
        match Category.ofValue (r.category.getD "other") with
        | none => .enumError "category" (item2 :: rest)
        | some cat =>
          (mergeLoop rm (idx + 1) rest).consItem
            { item2 with category := cat, tags := r.tags.getD [] }

/-- `_parse_response`, abstracted over the JSON-decode outcome of the
response text: `none` is the `json.JSONDecodeError` branch (caught, the
original items are returned untouched); `some results` is the decoded
array (a decoded single object is wrapped into a one-element list by the
source before this point). -/
def parse_response (decoded : Option (List SummaryResult))
    (original_items : List NewsItem) : MergeOut :=
  match decoded with
  | none => .ok original_items
  | some results => mergeLoop (resultMap results) 0 original_items

/-- Outcome of one `_process_batch` round-trip to the Claude API. -/
inductive BatchOutcome where
  | apiError : BatchOutcome
  | response : Option (List SummaryResult) → BatchOutcome
deriving DecidableEq, Repr

/-- `_process_batch`: on an API exception the batch is returned as-is; a
`ValueError` escaping `_parse_response` is caught by the same handler,
which returns `news_items` — the same list, in its mutated state. -/
def process_batch (outcome : BatchOutcome) (news_items : List NewsItem) : List NewsItem :=
  match outcome with
  | .apiError => news_items
  | .response decoded =>
    match parse_response decoded news_items with
    | .ok items => items
    | .enumError _ items => items

/-- The `for i in range(0, len(news_items), batch_size)` loop of
`summarize_and_categorize`, with `k` the batch number (outcomes of the
external calls are supplied per batch number).  The first argument is
recursion fuel — any value at least `length` of the list gives the loop's
behaviour, since each step consumes at least one element. -/
def summarizeGo (outcomes : Nat → BatchOutcome) : Nat → Nat → List NewsItem → List NewsItem
  | _, _, [] => []
  | 0, _, _ :: _ => []
  | n + 1, k, x :: xs =>
    process_batch (outcomes k) ((x :: xs).take 10) ++
      summarizeGo outcomes n (k + 1) ((x :: xs).drop 10)

/-- `ClaudeSummarizer.summarize_and_categorize` (the `if not news_items:
return []` guard coincides with the loop on an empty list). -/
def summarize_and_categorize (outcomes : Nat → BatchOutcome)
    (news_items : List NewsItem) : List NewsItem :=
  summarizeGo outcomes news_items.length 0 news_items

/-- The slices `news_items[i : i + batch_size]` taken by the batch loop
(fuel-based like `summarizeGo`). -/
def batches10Go : Nat → List NewsItem → List (List NewsItem)
  | _, [] => []
  | 0, _ :: _ => []
  | n + 1, x :: xs => (x :: xs).take 10 :: batches10Go n ((x :: xs).drop 10)

/-- The batch partition of the input list. -/
def batches10 (l : List NewsItem) : List (List NewsItem) :=
  batches10Go l.length l

/-- Per-batch processing of a batch list, batch `k` getting outcome
`outcomes k`: the summarizer loop seen batch-wise. -/
def mapBatches (outcomes : Nat → BatchOutcome) : Nat → List (List NewsItem) → List (List NewsItem)
  | _, [] => []
  | k, b :: bs => process_batch (outcomes k) b :: mapBatches outcomes (k + 1) bs

/-- The fields of a `NewsItem` that no summarizer operation assigns:
everything except `summary_ja`, `summary_en`, `importance`, `category`
and `tags`. -/
def FrameEq (a b : NewsItem) : Prop :=
  a.title = b.title ∧ a.url = b.url ∧ a.tool_name = b.tool_name ∧
  a.source = b.source ∧ a.published_at = b.published_at ∧
  a.content = b.content ∧ a.raw_data = b.raw_data

/-! ### Serialization (`NewsItem.to_dict` / `NewsItem.from_dict`) -/

/-- The dictionary written by `NewsItem.to_dict` and read by
`NewsItem.from_dict`.  Keys that `from_dict` reads with `.get` are
`Option`-valued so that their absence is representable; `to_dict`
always writes them.  `raw_data` is not part of the dictionary. -/
structure NewsItemDict where
  title : String
  url : String
  tool_name : String
  source : String
  published_at : Option String
  content : Option String
  summary_ja : Option String
  summary_en : Option String
  importance : Option String
  category : Option String
  tags : Option (List String)
deriving DecidableEq, Repr

/-- `NewsItem.to_dict`.  `isoformat` is the identity on the ISO-string
representation of datetimes, and a datetime object is always truthy, so
`self.published_at.isoformat() if self.published_at else None` is the
identity on the option. -/
def NewsItem.to_dict (it : NewsItem) : NewsItemDict :=
  { title := it.title
    url := it.url
    tool_name := it.tool_name
    source := it.source
    published_at := it.published_at
    content := some it.content
    summary_ja := some it.summary_ja
    summary_en := some it.summary_en
    importance := some it.importance.value
    category := some it.category.value
    tags := some it.tags }

/-- `NewsItem.from_dict`; `none` models the `ValueError` raised by
`Importance(...)`/`Category(...)` on an unrecognized string.  The string
`data.get("published_at")` is truthy only when non-empty.  `raw_data` is
not reconstructed and gets its dataclass default. -/
def NewsItem.from_dict (data : NewsItemDict) : Option NewsItem :=
  let published_at : Option String :=
    match data.published_at with
    | some s => if s = "" then none else some s
    | none => none
  match Importance.ofValue (data.importance.getD "medium"),
        Category.ofValue (data.category.getD "other") with
  | some imp, some cat =>
    some { title := data.title
           url := data.url
           tool_name := data.tool_name
           source := data.source
           published_at := published_at
           content := data.content.getD ""
           summary_ja := data.summary_ja.getD ""
           summary_en := data.summary_en.getD ""
           importance := imp
           category := cat
           tags := data.tags.getD [] }
  | _, _ => none

/-! ### Report renderer (`src/publisher/html_generator.py`) -/

/-- One step of filling the `defaultdict(list)` in
`HTMLReportGenerator.generate_report`
(`news_by_tool[item.tool_name].append(item)`): append to the entry with
this key, or add a new key at the end (Python dicts preserve
key-insertion order). -/
def addToGroups (groups : List (String × List NewsItem)) (item : NewsItem) :
    List (String × List NewsItem) :=
  match groups with
  | [] => [(item.tool_name, [item])]
  | (k, l) :: rest =>
    if k = item.tool_name then (k, l ++ [item]) :: rest
    else (k, l) :: addToGroups rest item

/-- The `news_by_tool` mapping of `generate_report`, as the
insertion-ordered association list a Python dict is. -/
def news_by_tool (items : List NewsItem) : List (String × List NewsItem) :=
  items.foldl addToGroups []

/-- One step of collecting keys in first-occurrence order. -/
def firstOccsStep (acc : List String) (t : String) : List String :=
  if t ∈ acc then acc else acc ++ [t]

/-- The keys of an insertion-ordered dict: first occurrences, in order. -/
def firstOccs (ts : List String) : List String :=
  ts.foldl firstOccsStep []

/-- An entry of the index page built by
`HTMLReportGenerator._update_index`. -/
structure ReportEntry where
  date : String
  ja_url : String
  en_url : String
deriving DecidableEq, Repr

/-- Python `str.replace("_ja", "")` on the character list: remove every
(leftmost-first, non-overlapping) occurrence of `"_ja"`. -/
def replJa : List Char → List Char
  | '_' :: 'j' :: 'a' :: rest => replJa rest
  | c :: rest => c :: replJa rest
  | [] => []

/-- `pathlib.Path.stem` on a file name: everything before the last dot
(the whole name when there is no dot). -/
def stemChars (l : List Char) : List Char :=
  match l.reverse.dropWhile (fun c => c ≠ '.') with
  | [] => l
  | _ :: restRev => restRev.reverse

/-- `file.stem.replace("_ja", "")` in `_update_index`. -/
def dateOf (f : String) : String :=
  String.mk (replJa (stemChars f.data))

/-- One index entry of `_update_index`:
`{"date": date_str, "ja_url": f"reports/{date_str}_ja.html", "en_url": ...}`. -/
def mkEntry (f : String) : ReportEntry :=
  { date := dateOf f
    ja_url := "reports/" ++ dateOf f ++ "_ja.html"
    en_url := "reports/" ++ dateOf f ++ "_en.html" }

/-- `_update_index` up to the final HTML rendering: the files matched by
`glob("*_ja.html")` are sorted descending (`sorted(..., reverse=True)`
on names in one directory), mapped to entries, and truncated to the 30
most recent (`reports[:30]`). -/
def update_index (files : List String) : List ReportEntry :=
  ((List.insertionSort (fun a b => b ≤ a) files).map mkEntry).take 30

/-! ### Concrete inputs used by witnesses and counterexamples. -/

/-- A minimal collected item. -/
def itemA : NewsItem :=
  { title := "a", url := "https://a", tool_name := "t", source := "gemini_search" }

/-- A second item with a distinct url, same tool. -/
def itemB : NewsItem :=
  { title := "b", url := "https://b", tool_name := "t", source := "gemini_search" }

/-- An item sharing `itemA`'s url but with a different title (collected
for another tool). -/
def itemADup : NewsItem :=
  { title := "a-dup", url := "https://a", tool_name := "t2", source := "gemini_search" }

/-- A summarization response enriching only the item at batch index 0. -/
def c2Results : List SummaryResult :=
  [{ id := 0, summary_ja := some "ja0", summary_en := some "en0",
     importance := some "high", category := some "release", tags := some ["tag0"] }]

/-- The merge result of `c2Results` on `[itemA, itemB]`. -/
def c2Out : List NewsItem :=
  [{ itemA with
      summary_ja := "ja0"
      summary_en := "en0"
      importance := .high
      category := .release
      tags := ["tag0"] },
   itemB]

/-- A summarization response whose only result carries an unrecognized
importance string. -/
def c3Results : List SummaryResult :=
  [{ id := 0, importance := some "urgent" }]

/-- A summarization response with a valid result for index 0 and an
unrecognized importance string at index 1. -/
def c6Results : List SummaryResult :=
  [{ id := 0, summary_ja := some "ja0", summary_en := some "en0",
     importance := some "high", category := some "release", tags := some ["tag0"] },
   { id := 1, summary_ja := some "ja1", importance := some "urgent" }]

/-- The mutated state in which the merge of `c6Results` over
`[itemA, itemB]` raises: item 0 fully enriched, item 1 with its
summaries already written. -/
def c6ErrItems : List NewsItem :=
  [{ itemA with
      summary_ja := "ja0"
      summary_en := "en0"
      importance := .high
      category := .release
      tags := ["tag0"] },
   { itemB with summary_ja := "ja1", summary_en := "" }]

/-- 45 consecutive ISO dates, as used by the index-truncation witness. -/
def dates45 : List String :=
  ["2024-01-01", "2024-01-02", "2024-01-03", "2024-01-04", "2024-01-05",
   "2024-01-06", "2024-01-07", "2024-01-08", "2024-01-09", "2024-01-10",
   "2024-01-11", "2024-01-12", "2024-01-13", "2024-01-14", "2024-01-15",
   "2024-01-16", "2024-01-17", "2024-01-18", "2024-01-19", "2024-01-20",
   "2024-01-21", "2024-01-22", "2024-01-23", "2024-01-24", "2024-01-25",
   "2024-01-26", "2024-01-27", "2024-01-28", "2024-01-29", "2024-01-30",
   "2024-01-31", "2024-02-01", "2024-02-02", "2024-02-03", "2024-02-04",
   "2024-02-05", "2024-02-06", "2024-02-07", "2024-02-08", "2024-02-09",
   "2024-02-10", "2024-02-11", "2024-02-12", "2024-02-13", "2024-02-14"]

/-! Facts about the deduplication loop. -/

theorem dedupByUrl_sublist (l : List NewsItem) (seen : List String) :
    (dedupByUrl l seen).Sublist l := by
  induction l generalizing seen with
  | nil => simp [dedupByUrl]
  | cons x xs ih =>
    simp only [dedupByUrl]
    split
    · exact (ih seen).trans (List.sublist_cons_self x xs)
    · exact (ih (x.url :: seen)).cons₂ x

theorem mem_dedupByUrl_url_not_seen {l : List NewsItem} {seen : List String}
    {x : NewsItem} (hx : x ∈ dedupByUrl l seen) : x.url ∉ seen := by
  induction l generalizing seen with
  | nil => simp [dedupByUrl] at hx
  | cons y ys ih =>
    simp only [dedupByUrl] at hx
    split at hx
    · exact ih hx
    · rcases List.mem_cons.mp hx with rfl | hx
      · assumption
      · intro hs
        exact ih hx (List.mem_cons_of_mem _ hs)

theorem dedupByUrl_nodup_urls (l : List NewsItem) (seen : List String) :
    ((dedupByUrl l seen).map NewsItem.url).Nodup := by
  induction l generalizing seen with
  | nil => simp [dedupByUrl]
  | cons x xs ih =>
    simp only [dedupByUrl]
    split
    · exact ih seen
    · simp only [List.map_cons, List.nodup_cons]
      refine ⟨?_, ih (x.url :: seen)⟩
      intro hmem
      rcases List.mem_map.mp hmem with ⟨y, hy, hurl⟩
      exact mem_dedupByUrl_url_not_seen hy (hurl ▸ List.mem_cons_self _ _)

/-- Every element of the dedup output is the *first* element of the input
whose URL is its URL (provided its URL was not already seen). -/
theorem dedupByUrl_first_occurrence {l : List NewsItem} {seen : List String}
    {x : NewsItem} (hx : x ∈ dedupByUrl l seen) :
    l.find? (fun y => y.url == x.url) = some x := by
  induction l generalizing seen with
  | nil => simp [dedupByUrl] at hx
  | cons y ys ih =>
    simp only [dedupByUrl] at hx
    split at hx
    · rename_i hseen
      have hne : ¬ (y.url == x.url) = true := by
        intro h
        exact mem_dedupByUrl_url_not_seen hx (beq_iff_eq.mp h ▸ hseen)
      simp only [List.find?, hne]
      exact ih hx
    · rcases List.mem_cons.mp hx with rfl | hx
      · simp [List.find?]
      · have hne : ¬ (y.url == x.url) = true := by
          intro h
          have : x.url ∉ y.url :: seen := mem_dedupByUrl_url_not_seen hx
          exact this (beq_iff_eq.mp h ▸ List.mem_cons_self _ _)
        simp only [List.find?, hne]
        exact ih hx

/-- C1: `search_tool_news` aggregates the parsed items of all of the
tool's search queries in query order, removes items whose url equals the
url of an earlier item (the first occurrence is kept and relative order
is preserved), and truncates to at most `max_results` items; the result
has length at most `max_results`, pairwise-distinct urls, and every
returned item is the first-encountered item with its url. -/
theorem search_tool_news_spec (queryResults : List (List NewsItem)) (max_results : Nat) :
    (search_tool_news queryResults max_results).length ≤ max_results ∧
    ((search_tool_news queryResults max_results).map NewsItem.url).Nodup ∧
    (search_tool_news queryResults max_results).Sublist queryResults.flatten ∧
    ∀ x ∈ search_tool_news queryResults max_results,
      queryResults.flatten.find? (fun y => y.url == x.url) = some x := by
  refine ⟨List.length_take_le _ _, ?_, ?_, ?_⟩
  · exact (dedupByUrl_nodup_urls queryResults.flatten []).sublist
      ((List.take_sublist _ _).map NewsItem.url)
  · exact (List.take_sublist _ _).trans (dedupByUrl_sublist _ _)
  · intro x hx
    exact dedupByUrl_first_occurrence (List.take_subset _ _ hx)

theorem frameEq_self (a : NewsItem) : FrameEq a a := by
  simp [FrameEq]

theorem consItem_items (x : NewsItem) (mo : MergeOut) :
    (mo.consItem x).items = x :: mo.items := by
  cases mo <;> rfl

theorem mergeLoop_frame (rm : Int → Option SummaryResult) (k : Nat) (l : List NewsItem) :
    List.Forall₂ FrameEq (mergeLoop rm k l).items l := by
  induction l generalizing k with
  | nil => simp [mergeLoop, MergeOut.items]
  | cons x xs ih =>
    cases hrm : rm k with
    | none =>
      simp only [mergeLoop, hrm, consItem_items]
      exact List.Forall₂.cons (frameEq_self x) (ih (k + 1))
    | some r =>
      cases himp : Importance.ofValue (r.importance.getD "medium") with
      | none =>
        simp only [mergeLoop, hrm, himp, MergeOut.items]
        exact List.Forall₂.cons (by simp [FrameEq]) (List.forall₂_same.mpr fun a _ => frameEq_self a)
      | some imp =>
        cases hcat : Category.ofValue (r.category.getD "other") with
        | none =>
          simp only [mergeLoop, hrm, himp, hcat, MergeOut.items]
          exact List.Forall₂.cons (by simp [FrameEq]) (List.forall₂_same.mpr fun a _ => frameEq_self a)
        | some cat =>
          simp only [mergeLoop, hrm, himp, hcat, consItem_items]
          exact List.Forall₂.cons (by simp [FrameEq]) (ih (k + 1))

theorem parse_response_frame (decoded : Option (List SummaryResult)) (b : List NewsItem) :
    List.Forall₂ FrameEq (parse_response decoded b).items b := by
  cases decoded with
  | none => exact List.forall₂_same.mpr fun a _ => frameEq_self a
  | some results => exact mergeLoop_frame _ 0 b

theorem process_batch_response (decoded : Option (List SummaryResult)) (b : List NewsItem) :
    process_batch (.response decoded) b = (parse_response decoded b).items := by
  cases h : parse_response decoded b <;> simp [process_batch, h, MergeOut.items]

theorem process_batch_frame (o : BatchOutcome) (b : List NewsItem) :
    List.Forall₂ FrameEq (process_batch o b) b := by
  cases o with
  | apiError => exact List.forall₂_same.mpr fun a _ => frameEq_self a
  | response decoded => rw [process_batch_response]; exact parse_response_frame decoded b

theorem summarizeGo_eq_mapBatches (outcomes : Nat → BatchOutcome) :
    ∀ (n k : Nat) (l : List NewsItem),
      summarizeGo outcomes n k l = (mapBatches outcomes k (batches10Go n l)).flatten := by
  intro n
  induction n with
  | zero => intro k l; cases l <;> simp [summarizeGo, batches10Go, mapBatches]
  | succ n ih =>
    intro k l
    cases l with
    | nil => simp [summarizeGo, batches10Go, mapBatches]
    | cons x xs =>
      simp only [summarizeGo, batches10Go, mapBatches, List.flatten_cons]
      rw [ih (k + 1)]

theorem batches10Go_flatten :
    ∀ (n : Nat) (l : List NewsItem), l.length ≤ n → (batches10Go n l).flatten = l := by
  intro n
  induction n with
  | zero =>
    intro l hl
    have : l = [] := List.eq_nil_of_length_eq_zero (Nat.le_zero.mp hl)
    subst this
    simp [batches10Go]
  | succ n ih =>
    intro l hl
    cases l with
    | nil => simp [batches10Go]
    | cons x xs =>
      simp only [batches10Go, List.flatten_cons]
      rw [ih ((x :: xs).drop 10) ?_]
      · exact List.take_append_drop 10 (x :: xs)
      · simp only [List.length_cons] at hl
        simp only [List.length_drop, List.length_cons]
        omega

theorem batches10_flatten (l : List NewsItem) : (batches10 l).flatten = l :=
  batches10Go_flatten l.length l le_rfl

theorem batches10Go_length_le :
    ∀ (n : Nat) (l : List NewsItem), ∀ b ∈ batches10Go n l, b.length ≤ 10 := by
  intro n
  induction n with
  | zero => intro l b hb; cases l <;> simp [batches10Go] at hb
  | succ n ih =>
    intro l b hb
    cases l with
    | nil => simp [batches10Go] at hb
    | cons x xs =>
      rcases List.mem_cons.mp hb with rfl | hb
      · simp [List.length_take_le 10 (x :: xs)]
      · exact ih ((x :: xs).drop 10) b hb

theorem batches10_length_le (l : List NewsItem) :
    ∀ b ∈ batches10 l, b.length ≤ 10 :=
  batches10Go_length_le l.length l

theorem mapBatches_frame (outcomes : Nat → BatchOutcome) :
    ∀ (k : Nat) (bs : List (List NewsItem)),
      List.Forall₂ (List.Forall₂ FrameEq) (mapBatches outcomes k bs) bs := by
  intro k bs
  induction bs generalizing k with
  | nil => exact List.Forall₂.nil
  | cons b bs ih =>
    exact List.Forall₂.cons (process_batch_frame _ b) (ih (k + 1))

/-- C7: `summarize_and_categorize` partitions its input into consecutive
batches of at most 10, re-concatenates the per-batch results, and
returns a list of the same length in which every item agrees with the
input item at the same position on `title`, `url`, `tool_name`,
`source`, `published_at`, `content` and `raw_data` — only the
enrichment fields can have been written. -/
theorem summarize_and_categorize_spec (outcomes : Nat → BatchOutcome) (l : List NewsItem) :
    (summarize_and_categorize outcomes l).length = l.length ∧
    List.Forall₂ FrameEq (summarize_and_categorize outcomes l) l ∧
    (batches10 l).flatten = l ∧
    (∀ b ∈ batches10 l, b.length ≤ 10) ∧
    summarize_and_categorize outcomes l = (mapBatches outcomes 0 (batches10 l)).flatten := by
  have heq : summarize_and_categorize outcomes l =
      (mapBatches outcomes 0 (batches10 l)).flatten :=
    summarizeGo_eq_mapBatches outcomes l.length 0 l
  have hframe : List.Forall₂ FrameEq (summarize_and_categorize outcomes l) l := by
    rw [heq]
    have h1 := mapBatches_frame outcomes 0 (batches10 l)
    have h2 := List.rel_flatten h1
    rwa [batches10_flatten] at h2
  exact ⟨hframe.length_eq, hframe, batches10_flatten l, batches10_length_le l, heq⟩

/-- Full characterization of a successful merge loop: item `i` is
overwritten according to the result mapped to id `k + i` when one
exists, and kept untouched otherwise. -/
theorem mergeLoop_ok_spec (rm : Int → Option SummaryResult) :
    ∀ (l : List NewsItem) (k : Nat) (out : List NewsItem),
      mergeLoop rm k l = .ok out →
      out.length = l.length ∧
      ∀ (i : Nat) (item : NewsItem), l[i]? = some item →
        (rm (↑(k + i)) = none → out[i]? = some item) ∧
        (∀ r, rm (↑(k + i)) = some r →
          ∃ imp cat,
            Importance.ofValue (r.importance.getD "medium") = some imp ∧
            Category.ofValue (r.category.getD "other") = some cat ∧
            out[i]? = some { item with
              summary_ja := r.summary_ja.getD ""
              summary_en := r.summary_en.getD ""
              importance := imp
              category := cat
              tags := r.tags.getD [] }) := by
  intro l
  induction l with
  | nil =>
    intro k out h
    simp only [mergeLoop, MergeOut.ok.injEq] at h
    subst h
    exact ⟨rfl, fun i item hi => by simp at hi⟩
  | cons x xs ih =>
    intro k out h
    cases hrm : rm ↑k with
    | none =>
      simp only [mergeLoop, hrm] at h
      cases hml : mergeLoop rm (k + 1) xs with
      | enumError m its => rw [hml] at h; simp [MergeOut.consItem] at h
      | ok out' =>
        rw [hml] at h
        simp only [MergeOut.consItem, MergeOut.ok.injEq] at h
        subst h
        obtain ⟨hlen, hspec⟩ := ih (k + 1) out' hml
        refine ⟨by simp [hlen], ?_⟩
        intro i item hi
        cases i with
        | zero =>
          simp only [List.getElem?_cons_zero, Option.some.injEq] at hi
          subst hi
          refine ⟨fun _ => by simp, fun r hr => ?_⟩
          rw [Nat.add_zero, hrm] at hr
          cases hr
        | succ j =>
          simp only [List.getElem?_cons_succ] at hi ⊢
          have harith : k + (j + 1) = k + 1 + j := by omega
          rw [harith]
          exact hspec j item hi
    | some r0 =>
      cases himp : Importance.ofValue (r0.importance.getD "medium") with
      | none => simp [mergeLoop, hrm, himp] at h
      | some imp =>
        cases hcat : Category.ofValue (r0.category.getD "other") with
        | none => simp [mergeLoop, hrm, himp, hcat] at h
        | some cat =>
          simp only [mergeLoop, hrm, himp, hcat] at h
          cases hml : mergeLoop rm (k + 1) xs with
          | enumError m its => rw [hml] at h; simp [MergeOut.consItem] at h
          | ok out' =>
            rw [hml] at h
            simp only [MergeOut.consItem, MergeOut.ok.injEq] at h
            subst h
            obtain ⟨hlen, hspec⟩ := ih (k + 1) out' hml
            refine ⟨by simp [hlen], ?_⟩
            intro i item hi
            cases i with
            | zero =>
              simp only [List.getElem?_cons_zero, Option.some.injEq] at hi
              subst hi
              constructor
              · intro hnone
                rw [Nat.add_zero, hrm] at hnone
                cases hnone
              · intro r hr
                rw [Nat.add_zero, hrm] at hr
                cases hr
                exact ⟨imp, cat, himp, hcat, by simp⟩
            | succ j =>
              simp only [List.getElem?_cons_succ] at hi ⊢
              have harith : k + (j + 1) = k + 1 + j := by omega
              rw [harith]
              exact hspec j item hi

/-- C2: in the merge step a mapping from result id to result is built
and the original item at batch index `i` has its `summary_ja`,
`summary_en`, `importance`, `category` and `tags` overwritten exactly
when some result has id `i`; an item whose index matches no result id
keeps all its pre-batch field values. -/
theorem merge_by_id (results : List SummaryResult) (original out : List NewsItem)
    (h : parse_response (some results) original = .ok out) :
    out.length = original.length ∧
    ∀ (i : Nat) (item : NewsItem), original[i]? = some item →
      (resultMap results (↑i) = none → out[i]? = some item) ∧
      (∀ r, resultMap results (↑i) = some r →
        ∃ imp cat,
          Importance.ofValue (r.importance.getD "medium") = some imp ∧
          Category.ofValue (r.category.getD "other") = some cat ∧
          out[i]? = some { item with
            summary_ja := r.summary_ja.getD ""
            summary_en := r.summary_en.getD ""
            importance := imp
            category := cat
            tags := r.tags.getD [] }) := by
  have hh := mergeLoop_ok_spec (resultMap results) original 0 out h
  simpa only [Nat.zero_add] using hh

/-- If some in-range batch index maps to a result whose importance or
category string is unrecognized, the merge loop raises. -/
theorem mergeLoop_err_of_bad (rm : Int → Option SummaryResult) :
    ∀ (l : List NewsItem) (k : Nat),
      (∃ i : Nat, i < l.length ∧ ∃ r, rm (↑(k + i)) = some r ∧
        (Importance.ofValue (r.importance.getD "medium") = none ∨
         Category.ofValue (r.category.getD "other") = none)) →
      ∃ msg items, mergeLoop rm k l = .enumError msg items := by
  intro l
  induction l with
  | nil =>
    intro k h
    obtain ⟨i, hi, -⟩ := h
    simp at hi
  | cons x xs ih =>
    intro k h
    obtain ⟨i, hi, r, hr, hbad⟩ := h
    cases hrm : rm ↑k with
    | none =>
      cases i with
      | zero => rw [Nat.add_zero, hrm] at hr; cases hr
      | succ j =>
        have hlt : j < xs.length := by simp only [List.length_cons] at hi; omega
        have hr' : rm (↑(k + 1 + j)) = some r := by
          rw [show k + 1 + j = k + (j + 1) from by omega]
          exact hr
        obtain ⟨msg, items, hml⟩ := ih (k + 1) ⟨j, hlt, r, hr', hbad⟩
        exact ⟨msg, x :: items, by simp only [mergeLoop, hrm, hml, MergeOut.consItem]⟩
    | some r0 =>
      cases himp : Importance.ofValue (r0.importance.getD "medium") with
      | none => exact ⟨"importance", _, by simp only [mergeLoop, hrm, himp]; rfl⟩
      | some imp =>
        cases hcat : Category.ofValue (r0.category.getD "other") with
        | none => exact ⟨"category", _, by simp only [mergeLoop, hrm, himp, hcat]; rfl⟩
        | some cat =>
          cases i with
          | zero =>
            rw [Nat.add_zero, hrm] at hr
            cases hr
            rcases hbad with hb | hb
            · rw [himp] at hb; cases hb
            · rw [hcat] at hb; cases hb
          | succ j =>
            have hlt : j < xs.length := by simp only [List.length_cons] at hi; omega
            have hr' : rm (↑(k + 1 + j)) = some r := by
              rw [show k + 1 + j = k + (j + 1) from by omega]
              exact hr
            obtain ⟨msg, items, hml⟩ := ih (k + 1) ⟨j, hlt, r, hr', hbad⟩
            exact ⟨msg, _ :: items, by simp only [mergeLoop, hrm, himp, hcat, hml, MergeOut.consItem]; rfl⟩

/-- C3: an unrecognized importance/category string in a matched result
makes the merge step fail fast — `Importance(...)`/`Category(...)`
raises and the error propagates out of `_parse_response` instead of
being silently replaced by a default value. -/
theorem enum_error_fails_fast (results : List SummaryResult) (original : List NewsItem)
    (h : ∃ i : Nat, i < original.length ∧ ∃ r, resultMap results (↑i) = some r ∧
      (Importance.ofValue (r.importance.getD "medium") = none ∨
       Category.ofValue (r.category.getD "other") = none)) :
    ∃ msg items, parse_response (some results) original = .enumError msg items := by
  apply mergeLoop_err_of_bad (resultMap results) original 0
  simpa only [Nat.zero_add] using h

theorem mapBatches_getElem? (outcomes : Nat → BatchOutcome) :
    ∀ (bs : List (List NewsItem)) (k i : Nat),
      (mapBatches outcomes k bs)[i]? =
        (bs[i]?).map (process_batch (outcomes (k + i))) := by
  intro bs
  induction bs with
  | nil => intro k i; simp [mapBatches]
  | cons b bs ih =>
    intro k i
    cases i with
    | zero => simp [mapBatches]
    | succ j =>
      simp only [mapBatches, List.getElem?_cons_succ]
      rw [ih (k + 1) j, show k + 1 + j = k + (j + 1) from by omega]

/-- C5: a failed request (`apiError`) or an unparseable response
(`response none`, the `json.JSONDecodeError` case) leaves that batch's
items untouched, and the run is the concatenation of the independently
processed batches — a failing batch never aborts the others. -/
theorem per_batch_failure_isolated (outcomes : Nat → BatchOutcome) (l : List NewsItem)
    (i : Nat) (b : List NewsItem)
    (hb : (batches10 l)[i]? = some b)
    (hfail : outcomes i = .apiError ∨ outcomes i = .response none) :
    summarize_and_categorize outcomes l = (mapBatches outcomes 0 (batches10 l)).flatten ∧
    (mapBatches outcomes 0 (batches10 l))[i]? = some b := by
  refine ⟨summarizeGo_eq_mapBatches outcomes l.length 0 l, ?_⟩
  rw [mapBatches_getElem?, hb]
  simp only [Nat.zero_add, Option.map_some']
  rcases hfail with hf | hf <;>
    simp [hf, process_batch, parse_response, MergeOut.items]

/-- The merge loop never touches items beyond the index at which it
raises. -/
theorem mergeLoop_err_drop (rm : Int → Option SummaryResult) :
    ∀ (l : List NewsItem) (k : Nat) (msg : String) (items : List NewsItem),
      mergeLoop rm k l = .enumError msg items →
      ∃ j, j < l.length ∧ items.drop (j + 1) = l.drop (j + 1) := by
  intro l
  induction l with
  | nil =>
    intro k msg items h
    simp [mergeLoop] at h
  | cons x xs ih =>
    intro k msg items h
    cases hrm : rm ↑k with
    | none =>
      simp only [mergeLoop, hrm] at h
      cases hml : mergeLoop rm (k + 1) xs with
      | ok out => rw [hml] at h; simp [MergeOut.consItem] at h
      | enumError m its =>
        rw [hml] at h
        simp only [MergeOut.consItem, MergeOut.enumError.injEq] at h
        obtain ⟨rfl, rfl⟩ := h
        obtain ⟨j, hj, hdrop⟩ := ih (k + 1) m its hml
        refine ⟨j + 1, by simp only [List.length_cons]; omega, ?_⟩
        simpa only [List.drop_succ_cons] using hdrop
    | some r0 =>
      cases himp : Importance.ofValue (r0.importance.getD "medium") with
      | none =>
        simp only [mergeLoop, hrm, himp, MergeOut.enumError.injEq] at h
        obtain ⟨rfl, rfl⟩ := h
        exact ⟨0, by simp, by simp⟩
      | some imp =>
        cases hcat : Category.ofValue (r0.category.getD "other") with
        | none =>
          simp only [mergeLoop, hrm, himp, hcat, MergeOut.enumError.injEq] at h
          obtain ⟨rfl, rfl⟩ := h
          exact ⟨0, by simp, by simp⟩
        | some cat =>
          simp only [mergeLoop, hrm, himp, hcat] at h
          cases hml : mergeLoop rm (k + 1) xs with
          | ok out => rw [hml] at h; simp [MergeOut.consItem] at h
          | enumError m its =>
            rw [hml] at h
            simp only [MergeOut.consItem, MergeOut.enumError.injEq] at h
            obtain ⟨rfl, rfl⟩ := h
            obtain ⟨j, hj, hdrop⟩ := ih (k + 1) m its hml
            refine ⟨j + 1, by simp only [List.length_cons]; omega, ?_⟩
            simpa only [List.drop_succ_cons] using hdrop

/-- C6 (amended): an unrecognized enum string raises during the merge
and aborts it; the outer per-batch handler catches the error and
returns the batch in its current, in-place mutated state — items after
the failing index are untouched and non-enrichment fields are never
changed, but items merged before the failure (and the partially updated
failing item) keep their new enrichment values: the merge is not
atomic. -/
theorem merge_error_returns_mutated_state (decoded : Option (List SummaryResult))
    (batch : List NewsItem) (msg : String) (items : List NewsItem)
    (h : parse_response decoded batch = .enumError msg items) :
    process_batch (.response decoded) batch = items ∧
    List.Forall₂ FrameEq items batch ∧
    ∃ j, j < batch.length ∧ items.drop (j + 1) = batch.drop (j + 1) := by
  refine ⟨?_, ?_, ?_⟩
  · rw [process_batch_response, h]
    rfl
  · have hf := parse_response_frame decoded batch
    rw [h] at hf
    exact hf
  · cases decoded with
    | none => simp [parse_response] at h
    | some results => exact mergeLoop_err_drop _ batch 0 msg items h

theorem importance_ofValue_value (i : Importance) : Importance.ofValue i.value = some i := by
  cases i <;> rfl

theorem category_ofValue_value (c : Category) : Category.ofValue c.value = some c := by
  cases c <;> rfl

/-- C8: converting a `NewsItem` to its dictionary form and back yields
an item with an equal importance and an equal category — the enum
values round-trip through their string representations. -/
theorem to_dict_from_dict_enum_roundtrip (it : NewsItem) :
    ∃ it', NewsItem.from_dict (NewsItem.to_dict it) = some it' ∧
      it'.importance = it.importance ∧ it'.category = it.category := by
  simp only [NewsItem.from_dict, NewsItem.to_dict, Option.getD_some,
    importance_ofValue_value, category_ofValue_value]
  exact ⟨_, rfl, rfl, rfl⟩

/-- C4 counterexample: two tools whose queries return items with the
same url; `collect_all_news` keeps both, so the aggregated list does
not have pairwise-distinct urls. -/
theorem collect_all_news_dup_url_counterexample :
    ¬ ((collect_all_news [[[itemA]], [[itemADup]]] 10).map NewsItem.url).Nodup := by
  decide

/-- C4 (amended): URL uniqueness is enforced per tool only —
`collect_all_news` is the plain concatenation of the per-tool collector
results, each of which has pairwise-distinct urls; no cross-tool
deduplication happens, so only within one tool's contribution are urls
distinct. -/
theorem collect_all_news_per_tool_unique (toolQueryResults : List (List (List NewsItem)))
    (max_results_per_tool : Nat) :
    collect_all_news toolQueryResults max_results_per_tool =
      (toolQueryResults.map (fun qrs => search_tool_news qrs max_results_per_tool)).flatten ∧
    ∀ qrs ∈ toolQueryResults,
      ((search_tool_news qrs max_results_per_tool).map NewsItem.url).Nodup := by
  refine ⟨rfl, fun qrs _ => ?_⟩
  exact (dedupByUrl_nodup_urls qrs.flatten []).sublist
    ((List.take_sublist _ _).map NewsItem.url)

theorem collect_all_news_per_tool_unique_witness :
    [[itemA, itemADup]] ∈ ([[[itemA, itemADup]], [[itemADup]]] : List (List (List NewsItem))) ∧
    ((search_tool_news [[itemA, itemADup]] 10).map NewsItem.url).Nodup :=
  ⟨by decide,
   (collect_all_news_per_tool_unique [[[itemA, itemADup]], [[itemADup]]] 10).2
     [[itemA, itemADup]] (by decide)⟩

theorem search_tool_news_spec_witness :
    itemA ∈ search_tool_news [[itemA], [itemADup]] 10 ∧
    ([[itemA], [itemADup]] : List (List NewsItem)).flatten.find?
      (fun y => y.url == itemA.url) = some itemA :=
  ⟨by decide,
   (search_tool_news_spec [[itemA], [itemADup]] 10).2.2.2 itemA (by decide)⟩

theorem merge_by_id_witness :
    parse_response (some c2Results) [itemA, itemB] = .ok c2Out ∧
    c2Out.length = ([itemA, itemB] : List NewsItem).length :=
  ⟨by decide, (merge_by_id c2Results [itemA, itemB] c2Out (by decide)).1⟩

theorem enum_error_fails_fast_witness :
    ∃ msg items, parse_response (some c3Results) [itemA] = .enumError msg items :=
  enum_error_fails_fast c3Results [itemA]
    ⟨0, by decide, { id := 0, importance := some "urgent" }, by decide, Or.inl (by decide)⟩

theorem per_batch_failure_isolated_witness :
    summarize_and_categorize (fun _ => BatchOutcome.apiError) [itemA] =
      (mapBatches (fun _ => BatchOutcome.apiError) 0 (batches10 [itemA])).flatten ∧
    (mapBatches (fun _ => BatchOutcome.apiError) 0 (batches10 [itemA]))[0]? = some [itemA] :=
  per_batch_failure_isolated (fun _ => BatchOutcome.apiError) [itemA] 0 [itemA]
    (by decide) (Or.inl rfl)

/-- C6 counterexample: with a valid result for index 0 and an
unrecognized importance at index 1, the merge raises, the outer handler
returns the batch — but item 0 comes back enriched (its `summary_ja`
changed), so the batch is not returned with every field unmodified. -/
theorem merge_not_atomic_counterexample :
    parse_response (some c6Results) [itemA, itemB] = .enumError "importance" c6ErrItems ∧
    process_batch (.response (some c6Results)) [itemA, itemB] ≠ [itemA, itemB] ∧
    (process_batch (.response (some c6Results)) [itemA, itemB]).map NewsItem.summary_ja ≠
      ([itemA, itemB] : List NewsItem).map NewsItem.summary_ja := by
  refine ⟨by decide, by decide, by decide⟩

theorem merge_error_returns_mutated_state_witness :
    parse_response (some c6Results) [itemA, itemB] = .enumError "importance" c6ErrItems ∧
    process_batch (.response (some c6Results)) [itemA, itemB] = c6ErrItems :=
  ⟨by decide,
   (merge_error_returns_mutated_state (some c6Results) [itemA, itemB] "importance" c6ErrItems
     (by decide)).1⟩

theorem summarize_and_categorize_spec_witness :
    (summarize_and_categorize (fun _ => BatchOutcome.apiError) [itemA]).length =
      ([itemA] : List NewsItem).length ∧
    ([itemA] : List NewsItem).length ≤ 10 :=
  ⟨(summarize_and_categorize_spec (fun _ => BatchOutcome.apiError) [itemA]).1,
   (summarize_and_categorize_spec (fun _ => BatchOutcome.apiError) [itemA]).2.2.2.1 [itemA]
     (by decide)⟩

/-! Facts about the grouping of `generate_report`. -/

theorem mem_foldl_firstOccsStep :
    ∀ (ts : List String) (acc : List String) (a : String),
      a ∈ ts.foldl firstOccsStep acc ↔ a ∈ acc ∨ a ∈ ts := by
  intro ts
  induction ts with
  | nil => intro acc a; simp
  | cons t ts ih =>
    intro acc a
    rw [List.foldl_cons, ih]
    unfold firstOccsStep
    by_cases ht : t ∈ acc
    · simp only [ht, if_true, List.mem_cons]
      constructor
      · rintro (h | h)
        · exact Or.inl h
        · exact Or.inr (Or.inr h)
      · rintro (h | rfl | h)
        · exact Or.inl h
        · exact Or.inl ht
        · exact Or.inr h
    · simp only [ht, if_false, List.mem_append, List.mem_singleton, List.mem_cons]
      tauto

theorem foldl_firstOccsStep_nodup :
    ∀ (ts : List String) (acc : List String), acc.Nodup →
      (ts.foldl firstOccsStep acc).Nodup := by
  intro ts
  induction ts with
  | nil => intro acc h; exact h
  | cons t ts ih =>
    intro acc h
    rw [List.foldl_cons]
    apply ih
    unfold firstOccsStep
    by_cases ht : t ∈ acc
    · simpa [ht] using h
    · simp only [ht, if_false]
      exact List.nodup_append.mpr ⟨h, List.nodup_singleton t,
        fun a ha hb => ht ((List.mem_singleton.mp hb) ▸ ha)⟩

theorem firstOccs_nodup (ts : List String) : (firstOccs ts).Nodup :=
  foldl_firstOccsStep_nodup ts [] List.nodup_nil

theorem mem_firstOccs (ts : List String) (a : String) : a ∈ firstOccs ts ↔ a ∈ ts := by
  unfold firstOccs
  rw [mem_foldl_firstOccsStep]
  simp

theorem addToGroups_map_fst (gs : List (String × List NewsItem)) (it : NewsItem) :
    (addToGroups gs it).map Prod.fst =
      firstOccsStep (gs.map Prod.fst) it.tool_name := by
  induction gs with
  | nil => simp [addToGroups, firstOccsStep]
  | cons p rest ih =>
    obtain ⟨k, l⟩ := p
    by_cases hk : k = it.tool_name
    · subst hk
      simp [addToGroups, firstOccsStep]
    · simp only [addToGroups, hk, if_false, List.map_cons, ih]
      unfold firstOccsStep
      have hne : ¬ it.tool_name = k := fun h => hk h.symm
      simp only [List.mem_cons, hne, false_or]
      by_cases hm : it.tool_name ∈ rest.map Prod.fst <;> simp [hm]

theorem addToGroups_filter (done : List NewsItem) (it : NewsItem) :
    ∀ (gs : List (String × List NewsItem)),
      (∀ p ∈ gs, p.2 = done.filter (fun x => x.tool_name == p.1)) →
      (it.tool_name ∉ gs.map Prod.fst →
        done.filter (fun x => x.tool_name == it.tool_name) = []) →
      (gs.map Prod.fst).Nodup →
      ∀ p ∈ addToGroups gs it,
        p.2 = (done ++ [it]).filter (fun x => x.tool_name == p.1) := by
  intro gs
  induction gs with
  | nil =>
    intro _ hempty _ p hp
    simp only [addToGroups, List.mem_singleton] at hp
    subst hp
    simp only [List.filter_append]
    rw [hempty (by simp)]
    simp
  | cons q rest ih =>
    obtain ⟨k, l⟩ := q
    intro hfil hempty hnd p hp
    have hndk : k ∉ rest.map Prod.fst := (List.nodup_cons.mp (by simpa using hnd)).1
    have hndr : (rest.map Prod.fst).Nodup := (List.nodup_cons.mp (by simpa using hnd)).2
    by_cases hk : k = it.tool_name
    · simp only [addToGroups, if_pos hk] at hp
      rcases List.mem_cons.mp hp with rfl | hp
      · simp only [List.filter_append]
        rw [← hfil (k, l) (List.mem_cons_self _ _)]
        have hbe : (it.tool_name == k) = true := by rw [hk]; exact beq_self_eq_true _
        simp [hbe]
      · have hp2 := hfil p (List.mem_cons_of_mem _ hp)
        rw [hp2, List.filter_append]
        have hne : ¬ (it.tool_name == p.1) = true := by
          intro hbe
          have hpm : p.1 ∈ rest.map Prod.fst := List.mem_map_of_mem Prod.fst hp
          rw [← beq_iff_eq.mp hbe, ← hk] at hpm
          exact hndk hpm
        simp [hne]
    · simp only [addToGroups, hk, if_false] at hp
      rcases List.mem_cons.mp hp with rfl | hp
      · rw [List.filter_append]
        have hne : ¬ (it.tool_name == k) = true := by
          intro hbe
          exact hk (beq_iff_eq.mp hbe).symm
        rw [← hfil (k, l) (List.mem_cons_self _ _)]
        simp [hne]
      · refine ih (fun q hq => hfil q (List.mem_cons_of_mem _ hq)) ?_ hndr p hp
        intro hnm
        apply hempty
        simp only [List.map_cons, List.mem_cons]
        rintro (h | h)
        · exact hk h.symm
        · exact hnm h

theorem foldl_addToGroups_spec :
    ∀ (rest : List NewsItem) (done : List NewsItem) (gs : List (String × List NewsItem)),
      gs.map Prod.fst = firstOccs (done.map NewsItem.tool_name) →
      (∀ p ∈ gs, p.2 = done.filter (fun x => x.tool_name == p.1)) →
      (rest.foldl addToGroups gs).map Prod.fst =
        firstOccs ((done ++ rest).map NewsItem.tool_name) ∧
      ∀ p ∈ rest.foldl addToGroups gs,
        p.2 = (done ++ rest).filter (fun x => x.tool_name == p.1) := by
  intro rest
  induction rest with
  | nil =>
    intro done gs h1 h2
    simp only [List.foldl_nil, List.append_nil]
    exact ⟨h1, h2⟩
  | cons it rest ih =>
    intro done gs h1 h2
    rw [List.foldl_cons]
    have hkeys : (addToGroups gs it).map Prod.fst =
        firstOccs ((done ++ [it]).map NewsItem.tool_name) := by
      rw [addToGroups_map_fst, h1]
      unfold firstOccs
      rw [List.map_append, List.foldl_append]
      simp
    have hfil : ∀ p ∈ addToGroups gs it,
        p.2 = (done ++ [it]).filter (fun x => x.tool_name == p.1) := by
      refine addToGroups_filter done it gs h2 ?_ ?_
      · intro hnm
        rw [h1, mem_firstOccs] at hnm
        rw [List.filter_eq_nil_iff]
        intro a ha hbe
        exact hnm (by
          rw [List.mem_map]
          exact ⟨a, ha, beq_iff_eq.mp hbe⟩)
      · rw [h1]
        exact firstOccs_nodup _
    have hres := ih (done ++ [it]) (addToGroups gs it) hkeys hfil
    rw [List.append_assoc, List.singleton_append] at hres
    exact hres

/-- C9: the renderer's grouping by `tool_name` is stable — the group
keys are the tool names in order of first occurrence across the item
list, and each group's list is exactly the sublist of items with that
tool name in their original relative order. -/
theorem grouping_stable (items : List NewsItem) :
    (news_by_tool items).map Prod.fst = firstOccs (items.map NewsItem.tool_name) ∧
    ∀ p ∈ news_by_tool items,
      p.2 = items.filter (fun x => x.tool_name == p.1) := by
  have h := foldl_addToGroups_spec items [] [] (by simp [firstOccs]) (by simp)
  simpa [news_by_tool] using h

theorem grouping_stable_witness :
    ("t", [itemA, itemB]) ∈ news_by_tool [itemA, itemB] ∧
    [itemA, itemB] =
      ([itemA, itemB] : List NewsItem).filter (fun x => x.tool_name == "t") :=
  ⟨by decide, (grouping_stable [itemA, itemB]).2 ("t", [itemA, itemB]) (by decide)⟩

/-! Facts about the index maintenance of `_update_index`. -/

theorem replJa_cons_ne (c : Char) (hc : c ≠ '_') (l : List Char) :
    replJa (c :: l) = c :: replJa l := by
  rw [replJa.eq_def]
  split
  · rename_i rest heq
    injection heq with h1 _
    exact absurd h1 hc
  · rename_i c' rest heq
    injection heq with h1 h2
    rw [h1, h2]
  · rename_i heq
    exact absurd heq (List.cons_ne_nil _ _)

theorem replJa_append (d : List Char) (hd : ∀ c ∈ d, c ≠ '_') :
    replJa (d ++ ('_' :: 'j' :: 'a' :: [])) = d := by
  induction d with
  | nil => rfl
  | cons c d' ih =>
    rw [List.cons_append, replJa_cons_ne c (hd c (List.mem_cons_self _ _))]
    rw [ih fun x hx => hd x (List.mem_cons_of_mem _ hx)]

theorem stemChars_ja_html (d : List Char) :
    stemChars (d ++ ('_' :: 'j' :: 'a' :: '.' :: 'h' :: 't' :: 'm' :: 'l' :: [])) =
      d ++ ('_' :: 'j' :: 'a' :: []) := by
  have hdw : (d ++ ('_' :: 'j' :: 'a' :: '.' :: 'h' :: 't' :: 'm' :: 'l' :: [])).reverse.dropWhile
      (fun c => c ≠ '.') = '.' :: 'a' :: 'j' :: '_' :: d.reverse := by
    rw [List.reverse_append]
    rfl
  unfold stemChars
  rw [hdw]
  simp

theorem ne_underscore_of_digit_or_dash (c : Char) (h : c.isDigit ∨ c = '-') : c ≠ '_' := by
  rcases h with h | h
  · intro he
    subst he
    exact absurd h (by decide)
  · subst h
    decide

theorem dateOf_append (d : String) (hd : ∀ c ∈ d.data, c ≠ '_') :
    dateOf (d ++ "_ja.html") = d := by
  unfold dateOf
  rw [String.data_append]
  have hsfx : ("_ja.html" : String).data =
      '_' :: 'j' :: 'a' :: '.' :: 'h' :: 't' :: 'm' :: 'l' :: [] := rfl
  rw [hsfx, stemChars_ja_html, replJa_append d.data hd]

theorem lex_append_of_lex (s : List Char) :
    ∀ {l1 l2 : List Char}, List.Lex (· < ·) l1 l2 → l1.length = l2.length →
      List.Lex (· < ·) (l1 ++ s) (l2 ++ s) := by
  intro l1 l2 h
  induction h with
  | nil => intro hlen; simp at hlen
  | rel hab => intro _; exact List.Lex.rel hab
  | cons h ih => intro hlen; exact List.Lex.cons (ih (by simpa using hlen))

/-- Appending a common suffix to strings of equal length preserves and
reflects the lexicographic order; this is why sorting the
`{date}_ja.html` file names descending sorts the dates descending. -/
theorem append_le_cancel (d1 d2 s : String)
    (hlen : d1.length = d2.length) (h : d1 ++ s ≤ d2 ++ s) : d1 ≤ d2 := by
  rw [String.le_iff_toList_le] at h ⊢
  by_contra hc
  rw [not_le] at hc
  apply absurd h
  rw [not_le]
  simp only [String.toList] at hc ⊢
  rw [String.data_append, String.data_append]
  have hlen' : d2.data.length = d1.data.length := by
    have h1 : d1.data.length = d1.length := rfl
    have h2 : d2.data.length = d2.length := rfl
    rw [h1, h2, hlen]
  exact lex_append_of_lex s.data hc hlen'

/-- C10: with 45 previously generated Japanese report files (one per
date, ISO-formatted), the rendered index lists exactly the 30 most
recent dates, sorted descending, each entry carrying the date and the
links to both language variants. -/
theorem update_index_spec (dates : List String)
    (hlen : dates.length = 45)
    (hform : ∀ d ∈ dates, d.length = 10 ∧ ∀ c ∈ d.data, c.isDigit ∨ c = '-') :
    (update_index (dates.map (fun d => d ++ "_ja.html"))).length = 30 ∧
    List.Sorted (fun a b => b ≤ a)
      ((update_index (dates.map (fun d => d ++ "_ja.html"))).map ReportEntry.date) ∧
    (∀ e ∈ update_index (dates.map (fun d => d ++ "_ja.html")),
      e.date ∈ dates ∧
      e.ja_url = "reports/" ++ e.date ++ "_ja.html" ∧
      e.en_url = "reports/" ++ e.date ++ "_en.html") ∧
    (∀ d ∈ dates,
      (∀ e ∈ update_index (dates.map (fun d => d ++ "_ja.html")), e.date ≠ d) →
      ∀ e ∈ update_index (dates.map (fun d => d ++ "_ja.html")), d ≤ e.date) := by
  have hrec : ∀ f ∈ dates.map (fun d => d ++ "_ja.html"),
      ∃ d ∈ dates, f = d ++ "_ja.html" ∧ dateOf f = d ∧ d.length = 10 := by
    intro f hf
    obtain ⟨d, hd, rfl⟩ := List.mem_map.mp hf
    obtain ⟨hdl, hdc⟩ := hform d hd
    exact ⟨d, hd, rfl,
      dateOf_append d (fun c hc => ne_underscore_of_digit_or_dash c (hdc c hc)), hdl⟩
  have hperm : List.Perm (List.insertionSort (fun a b => b ≤ a)
        (dates.map (fun d => d ++ "_ja.html"))) (dates.map (fun d => d ++ "_ja.html")) :=
    List.perm_insertionSort _ _
  have hsort : List.Sorted (fun a b : String => b ≤ a)
      (List.insertionSort (fun a b => b ≤ a) (dates.map (fun d => d ++ "_ja.html"))) :=
    List.sorted_insertionSort _ _
  have hsortlen : (List.insertionSort (fun a b => b ≤ a)
      (dates.map (fun d => d ++ "_ja.html"))).length = 45 := by
    rw [hperm.length_eq, List.length_map, hlen]
  have hentries : update_index (dates.map (fun d => d ++ "_ja.html")) =
      ((List.insertionSort (fun a b => b ≤ a)
        (dates.map (fun d => d ++ "_ja.html"))).take 30).map mkEntry := by
    unfold update_index
    exact (List.map_take _ _ _).symm
  have htakewf : ∀ f ∈ (List.insertionSort (fun a b => b ≤ a)
      (dates.map (fun d => d ++ "_ja.html"))).take 30,
      ∃ d ∈ dates, f = d ++ "_ja.html" ∧ dateOf f = d ∧ d.length = 10 :=
    fun f hf => hrec f (hperm.mem_iff.mp (List.take_subset _ _ hf))
  refine ⟨?_, ?_, ?_, ?_⟩
  · rw [hentries, List.length_map, List.length_take, hsortlen]
    rfl
  · rw [hentries, List.map_map]
    apply List.pairwise_map.mpr
    have hs30 : List.Sorted (fun a b : String => b ≤ a)
        ((List.insertionSort (fun a b => b ≤ a)
          (dates.map (fun d => d ++ "_ja.html"))).take 30) :=
      hsort.sublist (List.take_sublist _ _)
    refine List.Pairwise.imp_of_mem ?_ hs30
    intro a b ha hb hle
    obtain ⟨d1, -, rfl, hda, hl1⟩ := htakewf a ha
    obtain ⟨d2, -, rfl, hdb, hl2⟩ := htakewf b hb
    show (mkEntry (d2 ++ "_ja.html")).date ≤ (mkEntry (d1 ++ "_ja.html")).date
    show dateOf (d2 ++ "_ja.html") ≤ dateOf (d1 ++ "_ja.html")
    rw [hda, hdb]
    exact append_le_cancel d2 d1 "_ja.html" (hl2.trans hl1.symm) hle
  · intro e he
    rw [hentries] at he
    obtain ⟨f, hf, rfl⟩ := List.mem_map.mp he
    obtain ⟨d, hd, rfl, hdate, -⟩ := htakewf f hf
    refine ⟨?_, ?_, ?_⟩
    · show dateOf (d ++ "_ja.html") ∈ dates
      rw [hdate]
      exact hd
    · rfl
    · rfl
  · intro d hd hnot e he
    rw [hentries] at he
    obtain ⟨f', hf', rfl⟩ := List.mem_map.mp he
    obtain ⟨d1, -, rfl, hdate1, hl1⟩ := htakewf f' hf'
    have hdl : d.length = 10 := (hform d hd).1
    have hfile : d ++ "_ja.html" ∈ dates.map (fun d => d ++ "_ja.html") :=
      List.mem_map_of_mem _ hd
    have hdrec : dateOf (d ++ "_ja.html") = d :=
      dateOf_append d (fun c hc =>
        ne_underscore_of_digit_or_dash c ((hform d hd).2 c hc))
    have hnottake : d ++ "_ja.html" ∉ (List.insertionSort (fun a b => b ≤ a)
        (dates.map (fun d => d ++ "_ja.html"))).take 30 := by
      intro hmem
      apply hnot (mkEntry (d ++ "_ja.html"))
      · rw [hentries]
        exact List.mem_map_of_mem mkEntry hmem
      · exact hdrec
    have hdropmem : d ++ "_ja.html" ∈ (List.insertionSort (fun a b => b ≤ a)
        (dates.map (fun d => d ++ "_ja.html"))).drop 30 := by
      have hmem : d ++ "_ja.html" ∈ List.insertionSort (fun a b => b ≤ a)
          (dates.map (fun d => d ++ "_ja.html")) := hperm.mem_iff.mpr hfile
      rw [← List.take_append_drop 30 (List.insertionSort (fun a b => b ≤ a)
        (dates.map (fun d => d ++ "_ja.html")))] at hmem
      rcases List.mem_append.mp hmem with hmem | hmem
      · exact absurd hmem hnottake
      · exact hmem
    have hrel := hsort.rel_of_mem_take_of_mem_drop hf' hdropmem
    show d ≤ (mkEntry (d1 ++ "_ja.html")).date
    show d ≤ dateOf (d1 ++ "_ja.html")
    rw [hdate1]
    exact append_le_cancel d d1 "_ja.html" (hdl.trans hl1.symm) hrel

theorem update_index_spec_witness :
    dates45.length = 45 ∧
    (update_index (dates45.map (fun d => d ++ "_ja.html"))).length = 30 :=
  ⟨by decide, (update_index_spec dates45 (by decide) (by decide)).1⟩

end ReportNews

